import Mathlib

/-!
Verification of the text-transformation core and the command control flow of
the djquickstart scaffolder (src/djquickstart/cli.py).

Strings are modelled as `List Char`.  The Python primitives used by the code
(`str.splitlines`, `in` substring test, `str.strip().startswith`, `str.replace`,
and `re.sub` specialised to the two concrete patterns of the source) are
embedded below, and the two pure text transforms `add_app_to_settings` and
`fix_project_references` are translated from the source on top of them.
Since the source functions read a file and write the transformed text back,
each is modelled as the function from old file content to new file content.
-/

/-- Python line boundaries recognised by `str.splitlines`. -/
def isLB (c : Char) : Bool :=
  c = '\n' || c = '\r' || c = '\x0b' || c = '\x0c' || c = '\x1c' ||
  c = '\x1d' || c = '\x1e' || c = '\x85' || c = '\u2028' || c = '\u2029'

/-- Python whitespace (the set stripped by `str.strip()` and matched by the
regex class backslash-s in text mode). -/
def isPySpace (c : Char) : Bool :=
  c = ' ' || c = '\t' || c = '\n' || c = '\x0b' || c = '\x0c' || c = '\r' ||
  c = '\x1c' || c = '\x1d' || c = '\x1e' || c = '\x1f' || c = '\x85' ||
  c = '\xa0' || c = '\u1680' || ('\u2000' ≤ c && c ≤ '\u200a') ||
  c = '\u2028' || c = '\u2029' || c = '\u202f' || c = '\u205f' || c = '\u3000'

/-- Python's substring test `p in s`. -/
def pyIn (p : List Char) : List Char → Bool
  | [] => p.isEmpty
  | c :: t => p.isPrefixOf (c :: t) || pyIn p t

/-- Accumulator worker for `splitlines`; `acc` is the current line reversed. -/
def slAux (acc : List Char) : List Char → List (List Char)
  | [] => if acc.isEmpty then [] else [acc.reverse]
  | [c] => if isLB c then [acc.reverse] else [(c :: acc).reverse]
  | c :: c2 :: t =>
      if c = '\r' ∧ c2 = '\n' then acc.reverse :: slAux [] t
      else if isLB c then acc.reverse :: slAux [] (c2 :: t)
      else slAux (c :: acc) (c2 :: t)

/-- Python `str.splitlines()` (keepends=False): splits at every line boundary,
treating a CR LF pair as a single boundary; no trailing empty line. -/
def splitlines (s : List Char) : List (List Char) := slAux [] s

/-- Joining performed by the loop of `add_app_to_settings`: every emitted line
is followed by a single newline (`new_content += line + "\n"`). -/
def joinNL : List (List Char) → List Char
  | [] => []
  | l :: ls => l ++ '\n' :: joinNL ls

theorem pyIn_iff (p s : List Char) : pyIn p s = true ↔ p <:+: s := by
  induction s with
  | nil => simp [pyIn, List.isEmpty_iff, List.infix_nil]
  | cons c t ih =>
      simp [pyIn, List.infix_cons_iff, ih, List.isPrefixOf_iff_prefix]

theorem pyIn_of_parts (p a b : List Char) : pyIn p (a ++ p ++ b) = true := by
  rw [pyIn_iff]
  exact ⟨a, b, rfl⟩

theorem slAux_cons_notLB (acc s : List Char) (c : Char) (h : isLB c = false) :
    slAux acc (c :: s) = slAux (c :: acc) s := by
  have hr : c ≠ '\r' := by
    intro he
    rw [he] at h
    simp [isLB] at h
  cases s with
  | nil => simp [slAux, h]
  | cons c2 t => simp [slAux, h, hr]

theorem slAux_cons_nl (acc s : List Char) :
    slAux acc ('\n' :: s) = acc.reverse :: slAux [] s := by
  cases s with
  | nil => simp [slAux, isLB]
  | cons c2 t => simp [slAux, isLB]

theorem slAux_append (l : List Char) (h : ∀ c ∈ l, isLB c = false) :
    ∀ acc s, slAux acc (l ++ s) = slAux (l.reverse ++ acc) s := by
  induction l with
  | nil => intro acc s; simp
  | cons c t ih =>
      intro acc s
      have hc : isLB c = false := h c (List.mem_cons_self c t)
      have ht : ∀ x ∈ t, isLB x = false := fun x hx => h x (List.mem_cons_of_mem c hx)
      rw [List.cons_append, slAux_cons_notLB _ _ _ hc, ih ht]
      simp

theorem splitlines_joinNL (ls : List (List Char))
    (h : ∀ l ∈ ls, ∀ c ∈ l, isLB c = false) : splitlines (joinNL ls) = ls := by
  induction ls with
  | nil => simp [splitlines, joinNL, slAux]
  | cons l ls ih =>
      have hl : ∀ c ∈ l, isLB c = false := h l (List.mem_cons_self l ls)
      have hls : ∀ l' ∈ ls, ∀ c ∈ l', isLB c = false :=
        fun l' hl' => h l' (List.mem_cons_of_mem l hl')
      show slAux [] (l ++ '\n' :: joinNL ls) = l :: ls
      rw [slAux_append l hl, slAux_cons_nl]
      simp [splitlines] at ih
      simp [ih hls]

theorem slAux_noLB (n : Nat) :
    ∀ s acc, s.length ≤ n → (∀ c ∈ acc, isLB c = false) →
      ∀ l ∈ slAux acc s, ∀ c ∈ l, isLB c = false := by
  induction n with
  | zero =>
      intro s acc hlen hacc l hl
      have : s = [] := List.length_eq_zero.mp (Nat.le_zero.mp hlen)
      subst this
      simp [slAux] at hl
      rcases hl with ⟨he, hrev⟩
      intro c hc
      exact hacc c (by rw [hrev] at hc; simpa using hc)
  | succ n ih =>
      intro s acc hlen hacc l hl
      match s with
      | [] =>
          simp [slAux] at hl
          rcases hl with ⟨he, hrev⟩
          intro c hc
          exact hacc c (by rw [hrev] at hc; simpa using hc)
      | [c0] =>
          simp [slAux] at hl
          by_cases hc0 : isLB c0 = true
          · rw [if_pos hc0] at hl
            simp at hl
            intro c hc
            exact hacc c (by simpa [hl] using hc)
          · rw [if_neg hc0] at hl
            simp at hl
            intro c hc
            rw [hl] at hc
            simp at hc
            rcases hc with hc | hc
            · exact hacc c hc
            · rw [hc]; simpa using hc0
      | c0 :: c1 :: t =>
          by_cases hrn : c0 = '\r' ∧ c1 = '\n'
          · rw [show slAux acc (c0 :: c1 :: t) = acc.reverse :: slAux [] t by
              simp [slAux, hrn]] at hl
            simp at hl
            rcases hl with hl | hl
            · intro c hc; exact hacc c (by simpa [hl] using hc)
            · exact ih t [] (by simp at hlen ⊢; omega) (by simp) l hl
          · by_cases hc0 : isLB c0 = true
            · rw [show slAux acc (c0 :: c1 :: t) = acc.reverse :: slAux [] (c1 :: t) by
                simp [slAux, hrn, hc0]] at hl
              simp at hl
              rcases hl with hl | hl
              · intro c hc; exact hacc c (by simpa [hl] using hc)
              · exact ih (c1 :: t) [] (by simp at hlen ⊢; omega) (by simp) l hl
            · rw [show slAux acc (c0 :: c1 :: t) = slAux (c0 :: acc) (c1 :: t) by
                simp [slAux, hrn, hc0]] at hl
              refine ih (c1 :: t) (c0 :: acc) (by simp at hlen ⊢; omega) ?_ l hl
              intro c hc
              simp at hc
              rcases hc with hc | hc
              · rw [hc]; simpa using hc0
              · exact hacc c hc

theorem splitlines_noLB (s : List Char) :
    ∀ l ∈ splitlines s, ∀ c ∈ l, isLB c = false :=
  slAux_noLB s.length s [] (Nat.le_refl _) (by simp)

/-- The membership test of line 22 of the source: the Python substring test
`"INSTALLED_APPS" in line`. -/
def containsMarker (l : List Char) : Bool := pyIn ("INSTALLED_APPS").toList l

/-- The test of line 24: `line.strip().startswith("]")`.  Stripping both ends
and testing the first character equals testing the first character after the
leading whitespace (an all-whitespace line strips to the empty string, which
does not start with the closer). -/
def isCloser (l : List Char) : Bool :=
  match l.dropWhile isPySpace with
  | c :: _ => c = ']'
  | [] => false

/-- The line inserted by line 25 of the source, without its trailing newline
(every emitted line receives one newline in `joinNL`). -/
def insLine (app : List Char) : List Char :=
  ("    '").toList ++ app ++ ("',").toList

/-- The loop of lines 19-27 of `add_app_to_settings`: the Boolean argument is
the `in_installed` flag, set by a marker line, cleared by an insertion. -/
def processLines (app : List Char) : Bool → List (List Char) → List (List Char)
  | _, [] => []
  | inInstalled, l :: ls =>
      if (inInstalled || containsMarker l) && isCloser l then
        insLine app :: l :: processLines app false ls
      else l :: processLines app (inInstalled || containsMarker l) ls

/-- `add_app_to_settings` as a content transformer: the early return of
line 16-17 keeps the file unchanged; otherwise the file is rewritten from the
processed lines. -/
def add_app_to_settings (content app : List Char) : List Char :=
  if pyIn app content then content
  else joinNL (processLines app false (splitlines content))

/-- Index of the first line satisfying `p`. -/
def firstIdx (p : List Char → Bool) : List (List Char) → Option Nat
  | [] => none
  | l :: ls => if p l then some 0 else (firstIdx p ls).map (· + 1)

/-- Insert a line before position `n` (append at the end if out of range). -/
def insertAt (a : List Char) : Nat → List (List Char) → List (List Char)
  | 0, ls => a :: ls
  | _ + 1, [] => [a]
  | n + 1, l :: ls => l :: insertAt a n ls

/-- The insertion point the specification describes: the first closing line at
or after the first marker line, if both exist. -/
def specIdx (lines : List (List Char)) : Option Nat :=
  match firstIdx containsMarker lines with
  | none => none
  | some i =>
      match firstIdx isCloser (lines.drop i) with
      | none => none
      | some k => some (i + k)

/-- The single insertion the specification describes. -/
def specInsert (app : List Char) (lines : List (List Char)) : List (List Char) :=
  match specIdx lines with
  | none => lines
  | some j => insertAt (insLine app) j lines

theorem processLines_false_no_marker (app : List Char) (ls : List (List Char))
    (h : ∀ l ∈ ls, containsMarker l = false) :
    processLines app false ls = ls := by
  induction ls with
  | nil => rfl
  | cons l ls ih =>
      have hl := h l (List.mem_cons_self l ls)
      simp [processLines, hl, ih (fun x hx => h x (List.mem_cons_of_mem l hx))]

theorem processLines_true_no_marker (app : List Char) (ls : List (List Char))
    (h : ∀ l ∈ ls, containsMarker l = false) :
    processLines app true ls =
      match firstIdx isCloser ls with
      | none => ls
      | some k => insertAt (insLine app) k ls := by
  induction ls with
  | nil => rfl
  | cons l ls ih =>
      have hl := h l (List.mem_cons_self l ls)
      have ht : ∀ x ∈ ls, containsMarker x = false :=
        fun x hx => h x (List.mem_cons_of_mem l hx)
      have ih' := ih ht
      by_cases hc : isCloser l = true
      · simp [processLines, hc, firstIdx, insertAt,
          processLines_false_no_marker app ls ht]
      · have hc' : isCloser l = false := by simpa using hc
        cases h2 : firstIdx isCloser ls with
        | none => simp [processLines, hl, hc', firstIdx, h2, ih']
        | some k => simp [processLines, hl, hc', firstIdx, h2, ih', insertAt]

theorem processLines_single_marker (app : List Char) (ls : List (List Char))
    (h : ls.countP containsMarker ≤ 1) :
    processLines app false ls = specInsert app ls := by
  induction ls with
  | nil => rfl
  | cons l ls ih =>
      by_cases hm : containsMarker l = true
      · have h0 : ls.countP containsMarker = 0 := by
          have h2 : (l :: ls).countP containsMarker = ls.countP containsMarker + 1 := by
            simp [List.countP_cons, hm]
          rw [h2] at h
          omega
        have hno : ∀ x ∈ ls, containsMarker x = false := by
          intro x hx
          have := List.countP_eq_zero.mp h0 x hx
          simpa using this
        by_cases hc : isCloser l = true
        · simp [processLines, hm, hc, specInsert, specIdx, firstIdx,
            processLines_false_no_marker app ls hno, insertAt]
        · have hc' : isCloser l = false := by simpa using hc
          have := processLines_true_no_marker app ls hno
          cases h2 : firstIdx isCloser ls with
          | none =>
              rw [h2] at this
              simp [processLines, hm, hc', specInsert, specIdx, firstIdx, h2, this]
          | some k =>
              rw [h2] at this
              simp [processLines, hm, hc', specInsert, specIdx, firstIdx, h2, this,
                insertAt]
      · have hm' : containsMarker l = false := by simpa using hm
        have hcount : ls.countP containsMarker ≤ 1 := by
          have h2 : (l :: ls).countP containsMarker = ls.countP containsMarker := by
            simp [List.countP_cons, hm']
          rw [h2] at h
          exact h
        have ih' := ih hcount
        cases h2 : firstIdx containsMarker ls with
        | none =>
            simp [processLines, hm', specInsert, specIdx, firstIdx, h2] at ih' ⊢
            exact ih'
        | some i =>
            cases h3 : firstIdx isCloser (ls.drop i) with
            | none =>
                simp [processLines, hm', specInsert, specIdx, firstIdx, h2, h3,
                  List.drop_succ_cons] at ih' ⊢
                exact ih'
            | some k =>
                simp [processLines, hm', specInsert, specIdx, firstIdx, h2, h3,
                  List.drop_succ_cons, insertAt] at ih' ⊢
                rw [ih']
                rw [show i + 1 + k = (i + k) + 1 by omega]
                simp [insertAt]

theorem processLines_id_or_inserts (app : List Char) (b : Bool)
    (ls : List (List Char)) :
    processLines app b ls = ls ∨ app <:+: joinNL (processLines app b ls) := by
  induction ls generalizing b with
  | nil => left; rfl
  | cons l ls ih =>
      by_cases hcond : ((b || containsMarker l) && isCloser l) = true
      · right
        rw [show processLines app b (l :: ls) =
            insLine app :: l :: processLines app false ls by
          simp [processLines, hcond]]
        refine ⟨("    '").toList,
          ("',").toList ++ '\n' :: joinNL (l :: processLines app false ls), ?_⟩
        simp [joinNL, insLine]
      · have hcond' : ((b || containsMarker l) && isCloser l) = false := by
          simpa using hcond
        rw [show processLines app b (l :: ls) =
            l :: processLines app (b || containsMarker l) ls by
          simp [processLines, hcond']]
        rcases ih (b || containsMarker l) with he | hin
        · left; rw [he]
        · right
          refine hin.trans ⟨l ++ ['\n'], [], ?_⟩
          simp [joinNL]

/-- The lazy tail of the two patterns of `fix_project_references`: the regex
piece dot-star-lazy followed by the quote class consumes up to the nearest
quote of either kind; the dot does not match a newline (no DOTALL flag), so an
intervening newline makes the match attempt fail. -/
def scanClose : List Char → Option (List Char)
  | [] => none
  | c :: t =>
      if c = '"' ∨ c = '\'' then some t
      else if c = '\n' then none
      else scanClose t

/-- After the opening quote: the lazy body and closing quote. -/
def afterQuote : List Char → Option (List Char)
  | c2 :: r5 => if c2 = '"' ∨ c2 = '\'' then scanClose r5 else none
  | [] => none

/-- After the first whitespace run: the equals sign, the second whitespace
run, and the quoted part. -/
def afterEq : List Char → Option (List Char)
  | c :: r3 => if c = '=' then afterQuote (r3.dropWhile isPySpace) else none
  | [] => none

/-- One match attempt of the pattern KEY, whitespace run, equals sign,
whitespace run, opening quote, lazy body, closing quote, at the head of `s`;
returns the remainder after the match.  The greedy whitespace runs are forced
because an equals sign or a quote is not whitespace, so the backtracking
engine of `re` is equivalent to this deterministic scan. -/
def matchFixAt (key s : List Char) : Option (List Char) :=
  if key.isPrefixOf s then afterEq ((s.drop key.length).dropWhile isPySpace)
  else none

/-- Fuel-indexed worker for `re.sub`: scan left to right, replace each
leftmost non-overlapping match, continue after it. -/
def substF (key repl : List Char) : Nat → List Char → List Char
  | 0, s => s
  | _ + 1, [] => []
  | n + 1, c :: t =>
      match matchFixAt key (c :: t) with
      | some rest => repl ++ substF key repl n rest
      | none => c :: substF key repl n t

/-- `re.sub(pattern, repl, s)` for the two assignment patterns of the source.
The replacement text is inserted literally (the backslash escapes of Python
replacement templates are not modelled; no backslash occurs in the
replacements built from the project names considered here). -/
def subst (key repl s : List Char) : List Char := substF key repl s.length s

/-- Does a match of the pattern start at some position of `s`? -/
def hasMatch (key : List Char) : List Char → Bool
  | [] => false
  | c :: t => (matchFixAt key (c :: t)).isSome || hasMatch key t

def rootKey : List Char := ("ROOT_URLCONF").toList

def wsgiKey : List Char := ("WSGI_APPLICATION").toList

/-- The replacement string of line 38 of the source. -/
def rootRepl (safe : List Char) : List Char :=
  rootKey ++ (" = \"").toList ++ safe ++ (".urls\"").toList

/-- The replacement string of line 44 of the source. -/
def wsgiRepl (safe : List Char) : List Char :=
  wsgiKey ++ (" = \"").toList ++ safe ++ (".wsgi.application\"").toList

/-- `fix_project_references` as a content transformer: the ROOT_URLCONF
substitution followed by the WSGI_APPLICATION substitution. -/
def fix_project_references (text safe : List Char) : List Char :=
  subst wsgiKey (wsgiRepl safe) (subst rootKey (rootRepl safe) text)

/-- `safe_project_name` / `safe_app_name` of lines 71-72:
`name.replace("-", "_")`, a character-wise replacement. -/
def safe_name (s : List Char) : List Char :=
  s.map (fun c => if c = '-' then '_' else c)

theorem scanClose_length :
    ∀ l r : List Char, scanClose l = some r → r.length < l.length := by
  intro l
  induction l with
  | nil => intro r h; simp [scanClose] at h
  | cons c t ih =>
      intro r h
      by_cases hq : (c = '"' ∨ c = '\'')
      · simp [scanClose, hq] at h
        simp [← h]
      · by_cases hn : c = '\n'
        · simp [scanClose, hq, hn] at h
        · rw [show scanClose (c :: t) = scanClose t by simp [scanClose, hq, hn]] at h
          have := ih r h
          simp
          omega

theorem dropWhile_length_le (p : Char → Bool) (l : List Char) :
    (l.dropWhile p).length ≤ l.length := by
  induction l with
  | nil => simp [List.dropWhile]
  | cons c t ih =>
      simp only [List.dropWhile]
      split
      · simp; omega
      · simp

theorem afterQuote_length (l r : List Char) (h : afterQuote l = some r) :
    r.length < l.length := by
  cases l with
  | nil => simp [afterQuote] at h
  | cons c2 r5 =>
      simp only [afterQuote] at h
      split at h
      · have := scanClose_length r5 r h
        simp
        omega
      · simp at h

theorem afterEq_length (l r : List Char) (h : afterEq l = some r) :
    r.length < l.length := by
  cases l with
  | nil => simp [afterEq] at h
  | cons c r3 =>
      simp only [afterEq] at h
      split at h
      · have h1 := afterQuote_length (r3.dropWhile isPySpace) r h
        have h2 := dropWhile_length_le isPySpace r3
        simp
        omega
      · simp at h

theorem matchFixAt_length (key s r : List Char) (h : matchFixAt key s = some r) :
    r.length < s.length := by
  unfold matchFixAt at h
  split at h
  case isTrue hp =>
    have h1 := afterEq_length _ r h
    have h2 := dropWhile_length_le isPySpace (s.drop key.length)
    have h3 : (s.drop key.length).length ≤ s.length := by
      rw [List.length_drop]
      omega
    omega
  case isFalse hp => simp at h

theorem matchFixAt_nil (key : List Char) : matchFixAt key [] = none := by
  unfold matchFixAt
  split
  · simp [afterEq]
  · rfl

theorem matchFixAt_none_of_not_pre (key s : List Char)
    (h : key.isPrefixOf s = false) : matchFixAt key s = none := by
  unfold matchFixAt
  rw [h]
  simp

theorem substF_fuel (key repl : List Char) :
    ∀ (k : Nat) (s : List Char), s.length ≤ k →
      ∀ n m, s.length ≤ n → s.length ≤ m →
        substF key repl n s = substF key repl m s := by
  intro k
  induction k with
  | zero =>
      intro s hs n m hn hm
      have he : s = [] := List.length_eq_zero.mp (Nat.le_zero.mp hs)
      subst he
      cases n <;> cases m <;> rfl
  | succ k ih =>
      intro s hs n m hn hm
      cases s with
      | nil => cases n <;> cases m <;> rfl
      | cons c t =>
          cases n with
          | zero => simp at hn
          | succ n =>
              cases m with
              | zero => simp at hm
              | succ m =>
                  cases hmt : matchFixAt key (c :: t) with
                  | some rest =>
                      have hlen := matchFixAt_length key (c :: t) rest hmt
                      simp at hlen hs hn hm
                      simp only [substF, hmt]
                      rw [ih rest (by omega) n m (by omega) (by omega)]
                  | none =>
                      simp at hs hn hm
                      simp only [substF, hmt]
                      rw [ih t (by omega) n m (by omega) (by omega)]

theorem subst_nil (key repl : List Char) : subst key repl [] = [] := rfl

theorem subst_match (key repl s rest : List Char)
    (h : matchFixAt key s = some rest) :
    subst key repl s = repl ++ subst key repl rest := by
  cases s with
  | nil => rw [matchFixAt_nil] at h; simp at h
  | cons c t =>
      have hlen := matchFixAt_length key (c :: t) rest h
      show substF key repl (c :: t).length (c :: t) = _
      rw [List.length_cons]
      simp only [substF, h]
      rw [substF_fuel key repl rest.length rest (Nat.le_refl _) t.length rest.length
        (by simp at hlen; omega) (Nat.le_refl _)]
      rfl

theorem subst_nomatch (key repl : List Char) (c : Char) (t : List Char)
    (h : matchFixAt key (c :: t) = none) :
    subst key repl (c :: t) = c :: subst key repl t := by
  show substF key repl (c :: t).length (c :: t) = _
  rw [List.length_cons]
  simp only [substF, h]
  rfl

theorem subst_id_of_no_match (key repl : List Char) :
    ∀ s, hasMatch key s = false → subst key repl s = s := by
  intro s
  induction s with
  | nil => intro h; rfl
  | cons c t ih =>
      intro h
      simp only [hasMatch, Bool.or_eq_false_iff] at h
      rcases h with ⟨h1, h2⟩
      have hm : matchFixAt key (c :: t) = none := by
        cases hx : matchFixAt key (c :: t) with
        | none => rfl
        | some r => rw [hx] at h1; simp at h1
      rw [subst_nomatch key repl c t hm, ih h2]

theorem subst_contains (key repl : List Char) :
    ∀ s, hasMatch key s = true → pyIn repl (subst key repl s) = true := by
  intro s
  have hk : ∀ n s, s.length ≤ n → hasMatch key s = true →
      pyIn repl (subst key repl s) = true := by
    intro n
    induction n with
    | zero =>
        intro s hs h
        have he : s = [] := List.length_eq_zero.mp (Nat.le_zero.mp hs)
        subst he
        simp [hasMatch] at h
    | succ n ih =>
        intro s hs h
        cases s with
        | nil => simp [hasMatch] at h
        | cons c t =>
            cases hmt : matchFixAt key (c :: t) with
            | some rest =>
                rw [subst_match key repl (c :: t) rest hmt]
                have := pyIn_of_parts repl [] (subst key repl rest)
                simpa using this
            | none =>
                simp only [hasMatch, hmt, Option.isSome_none,
                  Bool.false_or] at h
                rw [subst_nomatch key repl c t hmt]
                simp at hs
                simp [pyIn, ih t (by omega) h]
  exact hk s.length s (Nat.le_refl _)

theorem subst_replaces_each_match (key repl a m b : List Char)
    (h1 : matchFixAt key (m ++ b) = some b)
    (h2 : ∀ p, p < a.length → matchFixAt key ((a ++ m ++ b).drop p) = none) :
    subst key repl (a ++ m ++ b) = a ++ repl ++ subst key repl b := by
  induction a with
  | nil =>
      simp only [List.nil_append]
      rw [subst_match key repl (m ++ b) b h1]
  | cons c a ih =>
      have h0 : matchFixAt key (c :: (a ++ m ++ b)) = none := by
        have := h2 0 (by simp)
        simpa using this
      have hrest : ∀ p, p < a.length → matchFixAt key ((a ++ m ++ b).drop p) = none := by
        intro p hp
        have := h2 (p + 1) (by simp; omega)
        rw [show ((c :: a) ++ m ++ b).drop (p + 1) = (a ++ m ++ b).drop p by
          simp [List.drop_succ_cons]] at this
        exact this
      rw [show (c :: a) ++ m ++ b = c :: (a ++ m ++ b) by simp]
      rw [subst_nomatch key repl c (a ++ m ++ b) h0, ih hrest]
      simp

/-- Fuel-indexed check that every occurrence of `key` in `s` begins a full
copy of `repl` (so the text's matches are exactly already-replaced canonical
assignments). -/
def onlyCF (key repl : List Char) : Nat → List Char → Bool
  | 0, s => s.isEmpty
  | _ + 1, [] => true
  | n + 1, c :: t =>
      if key.isPrefixOf (c :: t) then
        repl.isPrefixOf (c :: t) &&
          onlyCF key repl n ((c :: t).drop (max repl.length 1))
      else onlyCF key repl n t

def onlyC (key repl s : List Char) : Bool := onlyCF key repl s.length s

theorem onlyCF_fuel (key repl : List Char) :
    ∀ (k : Nat) (s : List Char), s.length ≤ k →
      ∀ n m, s.length ≤ n → s.length ≤ m →
        onlyCF key repl n s = onlyCF key repl m s := by
  intro k
  induction k with
  | zero =>
      intro s hs n m hn hm
      have he : s = [] := List.length_eq_zero.mp (Nat.le_zero.mp hs)
      subst he
      cases n <;> cases m <;> rfl
  | succ k ih =>
      intro s hs n m hn hm
      cases s with
      | nil => cases n <;> cases m <;> rfl
      | cons c t =>
          cases n with
          | zero => simp at hn
          | succ n =>
              cases m with
              | zero => simp at hm
              | succ m =>
                  simp only [onlyCF]
                  simp at hs hn hm
                  have hd : ((c :: t).drop (max repl.length 1)).length ≤ t.length := by
                    rw [List.length_drop, List.length_cons]
                    omega
                  rw [ih ((c :: t).drop (max repl.length 1)) (by omega) n m
                    (by omega) (by omega)]
                  rw [ih t (by omega) n m (by omega) (by omega)]

theorem onlyC_cons_pos (key repl : List Char) (c : Char) (t : List Char)
    (hk : key.isPrefixOf (c :: t) = true) :
    onlyC key repl (c :: t) =
      (repl.isPrefixOf (c :: t) &&
        onlyC key repl ((c :: t).drop (max repl.length 1))) := by
  show onlyCF key repl (c :: t).length (c :: t) = _
  rw [List.length_cons]
  simp only [onlyCF, hk, if_true]
  have hd : ((c :: t).drop (max repl.length 1)).length ≤ t.length := by
    rw [List.length_drop, List.length_cons]
    omega
  rw [onlyCF_fuel key repl t.length ((c :: t).drop (max repl.length 1)) hd
    t.length ((c :: t).drop (max repl.length 1)).length hd (Nat.le_refl _)]
  rfl

theorem onlyC_cons_neg (key repl : List Char) (c : Char) (t : List Char)
    (hk : key.isPrefixOf (c :: t) = false) :
    onlyC key repl (c :: t) = onlyC key repl t := by
  show onlyCF key repl (c :: t).length (c :: t) = _
  rw [List.length_cons]
  simp only [onlyCF, hk]
  rfl

theorem onlyC_subst_id (key repl : List Char) (hrne : repl ≠ [])
    (hcanon : ∀ u, matchFixAt key (repl ++ u) = some u) :
    ∀ s, onlyC key repl s = true → subst key repl s = s := by
  have hrlen : 1 ≤ repl.length := by
    cases repl with
    | nil => simp at hrne
    | cons x xs => simp
  have hmax : max repl.length 1 = repl.length := by omega
  intro s
  have hk : ∀ n s, s.length ≤ n → onlyC key repl s = true →
      subst key repl s = s := by
    intro n
    induction n with
    | zero =>
        intro s hs h
        have he : s = [] := List.length_eq_zero.mp (Nat.le_zero.mp hs)
        subst he
        rfl
    | succ n ih =>
        intro s hs h
        cases s with
        | nil => rfl
        | cons c t =>
            by_cases hp : key.isPrefixOf (c :: t) = true
            · rw [onlyC_cons_pos key repl c t hp, hmax] at h
              simp only [Bool.and_eq_true] at h
              rcases h with ⟨h3, h4⟩
              rcases List.isPrefixOf_iff_prefix.mp h3 with ⟨u, hu⟩
              have hdrop : (c :: t).drop repl.length = u := by
                rw [← hu, List.drop_left]
              have hmatch : matchFixAt key (c :: t) = some u := by
                rw [← hu]
                exact hcanon u
              rw [subst_match key repl (c :: t) u hmatch]
              have hul : u.length ≤ n := by
                have : (c :: t).length = repl.length + u.length := by
                  rw [← hu]
                  simp
                simp at hs this
                omega
              rw [hdrop] at h4
              rw [ih u hul h4, hu]
            · have hp' : key.isPrefixOf (c :: t) = false := Bool.eq_false_iff.mpr hp
              rw [onlyC_cons_neg key repl c t hp'] at h
              rw [subst_nomatch key repl c t (matchFixAt_none_of_not_pre key _ hp')]
              simp at hs
              rw [ih t (by omega) h]
  exact hk s.length s (Nat.le_refl _)

theorem scanClose_append (u v : List Char)
    (h : ∀ c ∈ u, ¬(c = '"' ∨ c = '\'' ∨ c = '\n')) :
    scanClose (u ++ v) = scanClose v := by
  induction u with
  | nil => rfl
  | cons c u ih =>
      have hc := h c (List.mem_cons_self c u)
      push_neg at hc
      rw [List.cons_append]
      rw [show scanClose (c :: (u ++ v)) = scanClose (u ++ v) by
        simp only [scanClose]
        rw [if_neg (by simp [hc.1, hc.2.1]), if_neg hc.2.2]]
      exact ih (fun x hx => h x (List.mem_cons_of_mem c hx))

theorem matchFixAt_canonical (key val t : List Char)
    (hval : ∀ c ∈ val, ¬(c = '"' ∨ c = '\'' ∨ c = '\n')) :
    matchFixAt key (key ++ ' ' :: '=' :: ' ' :: '"' :: (val ++ '"' :: t))
      = some t := by
  have hpre : key.isPrefixOf
      (key ++ ' ' :: '=' :: ' ' :: '"' :: (val ++ '"' :: t)) = true :=
    List.isPrefixOf_iff_prefix.mpr (List.prefix_append _ _)
  unfold matchFixAt
  rw [hpre, if_pos rfl, List.drop_left]
  rw [List.dropWhile_cons_of_pos (by decide), List.dropWhile_cons_of_neg (by decide)]
  simp only [afterEq, if_pos rfl]
  rw [List.dropWhile_cons_of_pos (by decide), List.dropWhile_cons_of_neg (by decide)]
  simp only [afterQuote]
  rw [if_pos (by simp)]
  rw [scanClose_append val ('"' :: t) hval]
  simp [scanClose]

theorem rootRepl_decomp (safe u : List Char) :
    rootRepl safe ++ u =
      rootKey ++ ' ' :: '=' :: ' ' :: '"' ::
        ((safe ++ (".urls").toList) ++ '"' :: u) := by
  have e1 : (" = \"").toList = ' ' :: '=' :: ' ' :: '"' :: [] := rfl
  have e2 : (".urls\"").toList = '.' :: 'u' :: 'r' :: 'l' :: 's' :: '"' :: [] := rfl
  have e3 : (".urls").toList = '.' :: 'u' :: 'r' :: 'l' :: 's' :: [] := rfl
  simp [rootRepl, e1, e2, e3]

theorem wsgiRepl_decomp (safe u : List Char) :
    wsgiRepl safe ++ u =
      wsgiKey ++ ' ' :: '=' :: ' ' :: '"' ::
        ((safe ++ (".wsgi.application").toList) ++ '"' :: u) := by
  have e1 : (" = \"").toList = ' ' :: '=' :: ' ' :: '"' :: [] := rfl
  have e2 : (".wsgi.application\"").toList =
      (".wsgi.application").toList ++ '"' :: [] := rfl
  simp [wsgiRepl, e1, e2]

theorem matchFixAt_rootRepl (safe u : List Char)
    (hs : ∀ c ∈ safe, ¬(c = '"' ∨ c = '\'' ∨ c = '\n')) :
    matchFixAt rootKey (rootRepl safe ++ u) = some u := by
  have hval : ∀ c ∈ safe ++ (".urls").toList, ¬(c = '"' ∨ c = '\'' ∨ c = '\n') := by
    intro c hc
    rcases List.mem_append.mp hc with h | h
    · exact hs c h
    · have hlit : ∀ x ∈ (".urls").toList, ¬(x = '"' ∨ x = '\'' ∨ x = '\n') := by
        decide
      exact hlit c h
  rw [rootRepl_decomp]
  exact matchFixAt_canonical rootKey _ u hval

theorem matchFixAt_wsgiRepl (safe u : List Char)
    (hs : ∀ c ∈ safe, ¬(c = '"' ∨ c = '\'' ∨ c = '\n')) :
    matchFixAt wsgiKey (wsgiRepl safe ++ u) = some u := by
  have hval : ∀ c ∈ safe ++ (".wsgi.application").toList,
      ¬(c = '"' ∨ c = '\'' ∨ c = '\n') := by
    intro c hc
    rcases List.mem_append.mp hc with h | h
    · exact hs c h
    · have hlit : ∀ x ∈ (".wsgi.application").toList,
          ¬(x = '"' ∨ x = '\'' ∨ x = '\n') := by
        decide
      exact hlit c h
  rw [wsgiRepl_decomp]
  exact matchFixAt_canonical wsgiKey _ u hval

theorem fix_second_pass_id (text safe : List Char)
    (hs : ∀ c ∈ safe, ¬(c = '"' ∨ c = '\'' ∨ c = '\n'))
    (h1 : onlyC rootKey (rootRepl safe) (fix_project_references text safe) = true)
    (h2 : onlyC wsgiKey (wsgiRepl safe) (fix_project_references text safe) = true) :
    fix_project_references (fix_project_references text safe) safe =
      fix_project_references text safe := by
  have er : rootRepl safe = 'R' :: (("OOT_URLCONF").toList ++ (" = \"").toList
      ++ safe ++ (".urls\"").toList) := by
    simp [rootRepl, rootKey]
  have ew : wsgiRepl safe = 'W' :: (("SGI_APPLICATION").toList ++ (" = \"").toList
      ++ safe ++ (".wsgi.application\"").toList) := by
    simp [wsgiRepl, wsgiKey]
  have hr : rootRepl safe ≠ [] := by rw [er]; simp
  have hw : wsgiRepl safe ≠ [] := by rw [ew]; simp
  show subst wsgiKey (wsgiRepl safe)
      (subst rootKey (rootRepl safe) (fix_project_references text safe)) = _
  rw [onlyC_subst_id rootKey (rootRepl safe) hr
    (fun u => matchFixAt_rootRepl safe u hs) _ h1]
  exact onlyC_subst_id wsgiKey (wsgiRepl safe) hw
    (fun u => matchFixAt_wsgiRepl safe u hs) _ h2

/-- Fuel-indexed worker for `str.replace`: replace each leftmost
non-overlapping occurrence of `pat`, continuing after it.  (Python's special
treatment of an empty pattern is not modelled; the only pattern used is the
fixed non-empty placeholder token.) -/
def replF (pat rep : List Char) : Nat → List Char → List Char
  | 0, s => s
  | _ + 1, [] => []
  | n + 1, c :: t =>
      if !pat.isEmpty && pat.isPrefixOf (c :: t) then
        rep ++ replF pat rep n ((c :: t).drop pat.length)
      else c :: replF pat rep n t

/-- Python `s.replace(pat, rep)` for a non-empty pattern. -/
def pyReplace (pat rep s : List Char) : List Char := replF pat rep s.length s

/-- The placeholder token of line 125 of the source. -/
def secret_placeholder : List Char := ("\x7b\x7bSECRET_KEY\x7d\x7d").toList

/-- Step 7 of the `project` command (lines 119-127): the environment file
content written when the template exists; `none` when the template is absent
and no file is written. -/
def env_file (template : Option (List Char)) (secret : List Char) :
    Option (List Char) :=
  template.map (fun t => pyReplace secret_placeholder secret t)

theorem replF_fuel (pat rep : List Char) :
    ∀ (k : Nat) (s : List Char), s.length ≤ k →
      ∀ n m, s.length ≤ n → s.length ≤ m →
        replF pat rep n s = replF pat rep m s := by
  intro k
  induction k with
  | zero =>
      intro s hs n m hn hm
      have he : s = [] := List.length_eq_zero.mp (Nat.le_zero.mp hs)
      subst he
      cases n <;> cases m <;> rfl
  | succ k ih =>
      intro s hs n m hn hm
      cases s with
      | nil => cases n <;> cases m <;> rfl
      | cons c t =>
          cases n with
          | zero => simp at hn
          | succ n =>
              cases m with
              | zero => simp at hm
              | succ m =>
                  simp only [replF]
                  simp at hs hn hm
                  by_cases hcond : (!pat.isEmpty && pat.isPrefixOf (c :: t)) = true
                  · rw [if_pos hcond, if_pos hcond]
                    have hpe : 1 ≤ pat.length := by
                      simp at hcond
                      rcases hcond with ⟨h1, h2⟩
                      cases pat with
                      | nil => simp at h1
                      | cons x xs => simp
                    have hd : ((c :: t).drop pat.length).length ≤ t.length := by
                      rw [List.length_drop, List.length_cons]
                      omega
                    rw [ih ((c :: t).drop pat.length) (by omega) n m
                      (by omega) (by omega)]
                  · rw [if_neg hcond, if_neg hcond]
                    rw [ih t (by omega) n m (by omega) (by omega)]

theorem pyReplace_nil (pat rep : List Char) : pyReplace pat rep [] = [] := rfl

theorem pyReplace_pos (pat rep : List Char) (c : Char) (t : List Char)
    (hne : pat ≠ []) (hp : pat.isPrefixOf (c :: t) = true) :
    pyReplace pat rep (c :: t) =
      rep ++ pyReplace pat rep ((c :: t).drop pat.length) := by
  have hpe : 1 ≤ pat.length := by
    cases pat with
    | nil => simp at hne
    | cons x xs => simp
  have hcond : (!pat.isEmpty && pat.isPrefixOf (c :: t)) = true := by
    simp [hp]
    cases pat with
    | nil => simp at hne
    | cons x xs => simp
  show replF pat rep (c :: t).length (c :: t) = _
  rw [List.length_cons]
  simp only [replF, hcond, if_pos]
  have hd : ((c :: t).drop pat.length).length ≤ t.length := by
    rw [List.length_drop, List.length_cons]
    omega
  rw [replF_fuel pat rep t.length ((c :: t).drop pat.length) hd
    t.length ((c :: t).drop pat.length).length hd (Nat.le_refl _)]
  rfl

theorem pyReplace_neg (pat rep : List Char) (c : Char) (t : List Char)
    (hp : pat.isPrefixOf (c :: t) = false) :
    pyReplace pat rep (c :: t) = c :: pyReplace pat rep t := by
  show replF pat rep (c :: t).length (c :: t) = _
  rw [List.length_cons]
  simp only [replF, hp, Bool.and_false, Bool.false_eq_true, if_false]
  rfl

/-- Abstract filesystem and process effects of the `project` command, in
program order. -/
inductive Effect
  | mkdir
  | startproject
  | copy_settings
  | fix_references
  | startapp
  | add_app
  | copy_requirements
  | write_env
  | pip_install
deriving DecidableEq

/-- The environment facts that steer the control flow of the `project`
command: the existence checks it performs and the outcomes of the
subprocesses it spawns. -/
structure Env where
  preset_exists : Bool
  target_exists : Bool
  target_nonempty : Bool
  startproject_ok : Bool
  startapp_ok : Bool
  src_settings_exists : Bool
  requirements_exists : Bool
  template_env_exists : Bool
  install : Bool

/-- Control flow of the `project` command (lines 61-137): the process exit
status (0 on success, 1 on `SystemExit(1)` or an uncaught subprocess error)
paired with the ordered list of effects performed before exiting.  The two
existence checks (preset, lines 65-68; non-empty target, lines 75-79) happen
before any effect; a failing generator subprocess aborts with the effects so
far (`check=True`); the dependency installation never aborts (`check=False`). -/
def project (e : Env) : Nat × List Effect :=
  if !e.preset_exists then (1, [])
  else if e.target_exists && e.target_nonempty then (1, [])
  else
    if !e.startproject_ok then (1, [Effect.mkdir, Effect.startproject])
    else
      let fx3 := [Effect.mkdir, Effect.startproject]
        ++ (if e.src_settings_exists then
              [Effect.copy_settings, Effect.fix_references] else [])
        ++ [Effect.startapp]
      if !e.startapp_ok then (1, fx3)
      else
        (0, fx3 ++ [Effect.add_app]
          ++ (if e.requirements_exists then [Effect.copy_requirements] else [])
          ++ (if e.template_env_exists then [Effect.write_env] else [])
          ++ (if e.install then [Effect.pip_install] else []))

theorem prefix_of_append_left (τ ρ ω : List Char) (h : τ <+: ρ ++ ω)
    (hle : τ.length ≤ ρ.length) : τ <+: ρ := by
  have h1 : τ = (ρ ++ ω).take τ.length := by
    rcases h with ⟨z, hz⟩
    rw [← hz, List.take_left]
  rw [List.take_append_of_le_length hle] at h1
  rw [h1]
  exact List.take_prefix _ _

theorem append_prefix_of_ge (τ ρ ω : List Char) (h : τ <+: ρ ++ ω)
    (hge : ρ.length ≤ τ.length) : ρ <+: τ := by
  rcases h with ⟨z, hz⟩
  have h1 : ρ = (ρ ++ ω).take ρ.length := by rw [List.take_left]
  rw [← hz, List.take_append_of_le_length hge] at h1
  rw [h1]
  exact List.take_prefix _ _

theorem tok_drop_mem : ∀ j, j ≤ 13 → '\x7d' ∈ secret_placeholder.drop j := by
  decide

theorem tok_prefix_head (x : Char) (l : List Char)
    (h : secret_placeholder <+: x :: l) :
    x = '\x7b' ∧ secret_placeholder.drop 1 <+: l := by
  rcases h with ⟨z, hz⟩
  have he : secret_placeholder = '\x7b' :: secret_placeholder.drop 1 := rfl
  rw [he, List.cons_append] at hz
  injection hz with h1 h2
  exact ⟨h1.symm, ⟨z, h2⟩⟩

theorem tok_prefix_head_mpr (x : Char) (l : List Char) (h1 : x = '\x7b')
    (h2 : secret_placeholder.drop 1 <+: l) : secret_placeholder <+: x :: l := by
  rcases h2 with ⟨z, hz⟩
  refine ⟨z, ?_⟩
  have he : secret_placeholder = '\x7b' :: secret_placeholder.drop 1 := rfl
  rw [he, List.cons_append, hz, h1]

theorem pyReplace_token_pre (rep : List Char)
    (hb : ∀ c ∈ rep, ¬(c = '\x7b' ∨ c = '\x7d')) (hlen : 12 < rep.length) :
    ∀ n s, s.length ≤ n → ∀ j, j ≤ 14 →
      secret_placeholder.drop j <+: pyReplace secret_placeholder rep s →
      secret_placeholder.drop j <+: s := by
  intro n
  induction n with
  | zero =>
      intro s hs j hj h
      have he : s = [] := List.length_eq_zero.mp (Nat.le_zero.mp hs)
      subst he
      rw [pyReplace_nil] at h
      exact h
  | succ n ih =>
      intro s hs j hj h
      cases s with
      | nil => rw [pyReplace_nil] at h; exact h
      | cons c t =>
          by_cases hj14 : j = 14
          · subst hj14
            rw [show secret_placeholder.drop 14 = [] from rfl]
            exact List.nil_prefix
          · have hj13 : j ≤ 13 := by omega
            have htl : (secret_placeholder.drop j).length = 14 - j := by
              rw [List.length_drop]
              rw [show secret_placeholder.length = 14 from rfl]
            by_cases hp : secret_placeholder.isPrefixOf (c :: t) = true
            · rw [pyReplace_pos _ _ c t (by decide) hp] at h
              exfalso
              by_cases hle : (secret_placeholder.drop j).length ≤ rep.length
              · have hpre := prefix_of_append_left _ _ _ h hle
                exact hb '\x7d' (hpre.sublist.mem (tok_drop_mem j hj13)) (by simp)
              · push_neg at hle
                have hpre := append_prefix_of_ge _ _ _ h (by omega)
                have h13 : rep.length = 13 ∧ j = 0 := by
                  rw [htl] at hle
                  omega
                rcases h13 with ⟨hr13, hj0⟩
                subst hj0
                rw [List.drop_zero] at hpre
                have hrt : rep = secret_placeholder.take 13 := by
                  have := List.prefix_iff_eq_take.mp hpre
                  rw [hr13] at this
                  exact this
                have hbra : '\x7b' ∈ rep := by
                  rw [hrt]
                  decide
                exact hb '\x7b' hbra (by simp)
            · have hp' : secret_placeholder.isPrefixOf (c :: t) = false :=
                Bool.eq_false_iff.mpr hp
              rw [pyReplace_neg _ _ c t hp'] at h
              have hjlt : j < secret_placeholder.length := by
                rw [show secret_placeholder.length = 14 from rfl]
                omega
              have hdrop := List.drop_eq_getElem_cons hjlt
              rw [hdrop] at h ⊢
              rw [List.cons_prefix_cons] at h ⊢
              rcases h with ⟨hch, hpre⟩
              refine ⟨hch, ?_⟩
              simp at hs
              exact ih t (by omega) (j + 1) (by omega) hpre

theorem pyIn_append_eq (p ρ ω : List Char)
    (h : ∀ v, v ≠ [] → v <:+ ρ → p.isPrefixOf (v ++ ω) = false) :
    pyIn p (ρ ++ ω) = pyIn p ω := by
  induction ρ with
  | nil => rfl
  | cons a ρ ih =>
      have h1 : p.isPrefixOf ((a :: ρ) ++ ω) = false :=
        h (a :: ρ) (by simp) (List.suffix_refl _)
      show (p.isPrefixOf (a :: (ρ ++ ω)) || pyIn p (ρ ++ ω)) = pyIn p ω
      rw [show a :: (ρ ++ ω) = (a :: ρ) ++ ω from rfl, h1]
      simp only [Bool.false_or]
      exact ih (fun v hv hsuf => h v hv (hsuf.trans (List.suffix_cons a ρ)))

theorem pyReplace_no_token (rep : List Char)
    (hb : ∀ c ∈ rep, ¬(c = '\x7b' ∨ c = '\x7d')) (hlen : 12 < rep.length) :
    ∀ n s, s.length ≤ n →
      pyIn secret_placeholder (pyReplace secret_placeholder rep s) = false := by
  intro n
  induction n with
  | zero =>
      intro s hs
      have he : s = [] := List.length_eq_zero.mp (Nat.le_zero.mp hs)
      subst he
      rw [pyReplace_nil]
      rfl
  | succ n ih =>
      intro s hs
      cases s with
      | nil => rw [pyReplace_nil]; rfl
      | cons c t =>
          simp at hs
          by_cases hp : secret_placeholder.isPrefixOf (c :: t) = true
          · rw [pyReplace_pos _ _ c t (by decide) hp]
            have hstep : ∀ v, v ≠ [] → v <:+ rep →
                secret_placeholder.isPrefixOf
                  (v ++ pyReplace secret_placeholder rep
                    ((c :: t).drop secret_placeholder.length)) = false := by
              intro v hv hsuf
              cases v with
              | nil => simp at hv
              | cons a v' =>
                  cases hx : secret_placeholder.isPrefixOf
                      ((a :: v') ++ pyReplace secret_placeholder rep
                        ((c :: t).drop secret_placeholder.length)) with
                  | false => rfl
                  | true =>
                      exfalso
                      have hpre2 := List.isPrefixOf_iff_prefix.mp hx
                      have hhead := tok_prefix_head a _ hpre2
                      have ha : a ∈ rep := hsuf.sublist.mem (List.mem_cons_self a v')
                      rw [hhead.1] at ha
                      exact hb '\x7b' ha (by simp)
            rw [pyIn_append_eq secret_placeholder rep _ hstep]
            have hd : ((c :: t).drop secret_placeholder.length).length ≤ n := by
              rw [List.length_drop, List.length_cons]
              rw [show secret_placeholder.length = 14 from rfl]
              omega
            exact ih _ hd
          · have hp' : secret_placeholder.isPrefixOf (c :: t) = false :=
              Bool.eq_false_iff.mpr hp
            rw [pyReplace_neg _ _ c t hp']
            show (secret_placeholder.isPrefixOf
                (c :: pyReplace secret_placeholder rep t) ||
              pyIn secret_placeholder (pyReplace secret_placeholder rep t)) = false
            rw [ih t (by omega)]
            simp only [Bool.or_false]
            cases hx : secret_placeholder.isPrefixOf
                (c :: pyReplace secret_placeholder rep t) with
            | false => rfl
            | true =>
                exfalso
                have h2 := List.isPrefixOf_iff_prefix.mp hx
                have hhead := tok_prefix_head c _ h2
                have h4 := pyReplace_token_pre rep hb hlen n t (by omega) 1
                  (by omega) hhead.2
                have h5 : secret_placeholder <+: c :: t :=
                  tok_prefix_head_mpr c t hhead.1 h4
                exact hp (List.isPrefixOf_iff_prefix.mpr h5)

theorem scanClose_suffix : ∀ l r : List Char, scanClose l = some r → r <:+ l := by
  intro l
  induction l with
  | nil => intro r h; simp [scanClose] at h
  | cons c t ih =>
      intro r h
      by_cases hq : (c = '"' ∨ c = '\'')
      · simp [scanClose, hq] at h
        rw [← h]
        exact List.suffix_cons c t
      · by_cases hn : c = '\n'
        · simp [scanClose, hq, hn] at h
        · rw [show scanClose (c :: t) = scanClose t by simp [scanClose, hq, hn]] at h
          exact (ih r h).trans (List.suffix_cons c t)

theorem afterQuote_suffix (l r : List Char) (h : afterQuote l = some r) : r <:+ l := by
  cases l with
  | nil => simp [afterQuote] at h
  | cons c2 r5 =>
      simp only [afterQuote] at h
      split at h
      · exact (scanClose_suffix r5 r h).trans (List.suffix_cons c2 r5)
      · simp at h

theorem afterEq_suffix (l r : List Char) (h : afterEq l = some r) : r <:+ l := by
  cases l with
  | nil => simp [afterEq] at h
  | cons c r3 =>
      simp only [afterEq] at h
      split at h
      · exact ((afterQuote_suffix _ r h).trans
          (List.dropWhile_suffix isPySpace)).trans (List.suffix_cons c r3)
      · simp at h

theorem matchFixAt_suffix (key s r : List Char) (h : matchFixAt key s = some r) :
    r <:+ s := by
  unfold matchFixAt at h
  split at h
  case isTrue hp =>
    exact ((afterEq_suffix _ r h).trans
      (List.dropWhile_suffix isPySpace)).trans (List.drop_suffix key.length s)
  case isFalse hp => simp at h

theorem suffix_split_long (A Z r : List Char) (h : r <:+ A ++ Z)
    (hlen : Z.length ≤ r.length) : ∃ w A2, A = w ++ A2 ∧ r = A2 ++ Z := by
  rcases h with ⟨w, hw⟩
  have hwlen : w.length ≤ A.length := by
    have hl := congrArg List.length hw
    simp [List.length_append] at hl
    omega
  have hwA : w = A.take w.length := by
    have h1 : (w ++ r).take w.length = w := List.take_left w r
    rw [hw, List.take_append_of_le_length hwlen] at h1
    exact h1.symm
  have hsplit : A = w ++ A.drop w.length := by
    conv_lhs => rw [← List.take_append_drop w.length A]
    rw [← hwA]
  refine ⟨w, A.drop w.length, hsplit, ?_⟩
  have h2 : w ++ r = w ++ (A.drop w.length ++ Z) := by
    rw [hw]
    conv_lhs => rw [hsplit]
    rw [List.append_assoc]
  exact List.append_cancel_left h2

theorem subst_skips_to (key repl : List Char) :
    ∀ n A Z, (A ++ Z).length ≤ n →
      (∀ p, p < A.length → ∀ rest,
        matchFixAt key ((A ++ Z).drop p) = some rest →
        Z.length ≤ rest.length) →
      ∃ C, subst key repl (A ++ Z) = C ++ subst key repl Z := by
  intro n
  induction n with
  | zero =>
      intro A Z hlen h1
      cases A with
      | nil => exact ⟨[], by simp⟩
      | cons a A2 => simp at hlen
  | succ n ih =>
      intro A Z hlen h1
      cases A with
      | nil => exact ⟨[], by simp⟩
      | cons a A2 =>
          cases hmt : matchFixAt key (a :: (A2 ++ Z)) with
          | none =>
              have h1n : ∀ p, p < A2.length → ∀ rest,
                  matchFixAt key ((A2 ++ Z).drop p) = some rest →
                  Z.length ≤ rest.length := by
                intro p hp rest hm
                refine h1 (p + 1) (by simp; omega) rest ?_
                rw [show ((a :: A2) ++ Z).drop (p + 1) = (A2 ++ Z).drop p by
                  simp [List.drop_succ_cons]]
                exact hm
              obtain ⟨C, hC⟩ := ih A2 Z (by simp at hlen ⊢; omega) h1n
              refine ⟨a :: C, ?_⟩
              rw [show (a :: A2) ++ Z = a :: (A2 ++ Z) from rfl]
              rw [subst_nomatch key repl a (A2 ++ Z) hmt, hC]
              simp
          | some rest =>
              have hz : Z.length ≤ rest.length := by
                have hh := h1 0 (by simp) rest
                rw [List.drop_zero] at hh
                exact hh hmt
              have hsuf : rest <:+ (a :: A2) ++ Z :=
                matchFixAt_suffix key _ rest hmt
              obtain ⟨w, A3, hA3, hrest⟩ :=
                suffix_split_long (a :: A2) Z rest hsuf hz
              have h1s : ∀ p, p < A3.length → ∀ rest2,
                  matchFixAt key ((A3 ++ Z).drop p) = some rest2 →
                  Z.length ≤ rest2.length := by
                intro p hp rest2 hm
                have hlw : (a :: A2).length = w.length + A3.length := by
                  rw [hA3]
                  simp
                refine h1 (w.length + p) (by simp at hlw ⊢; omega) rest2 ?_
                rw [show (a :: A2) ++ Z = w ++ (A3 ++ Z) by
                  rw [hA3, List.append_assoc]]
                rw [← List.drop_drop, List.drop_left]
                exact hm
              have hlen3 : (A3 ++ Z).length ≤ n := by
                have hr := matchFixAt_length key (a :: (A2 ++ Z)) rest hmt
                have he : rest.length = (A3 ++ Z).length := by rw [hrest]
                simp [List.length_append] at hlen hr he ⊢
                omega
              obtain ⟨C2, hC2⟩ := ih A3 Z hlen3 h1s
              refine ⟨repl ++ C2, ?_⟩
              rw [show (a :: A2) ++ Z = a :: (A2 ++ Z) from rfl]
              rw [subst_match key repl _ rest hmt, hrest, hC2]
              simp [List.append_assoc]

theorem subst_copies_run (key repl : List Char) :
    ∀ R B, (∀ q, q < R.length → matchFixAt key ((R ++ B).drop q) = none) →
      subst key repl (R ++ B) = R ++ subst key repl B := by
  intro R
  induction R with
  | nil => intro B h; simp
  | cons r R2 ih =>
      intro B h
      have h0 : matchFixAt key (r :: (R2 ++ B)) = none := by
        have hh := h 0 (by simp)
        rw [List.drop_zero] at hh
        exact hh
      have hrec := ih B (by
        intro q hq
        have hh := h (q + 1) (by simp; omega)
        rw [show ((r :: R2) ++ B).drop (q + 1) = (R2 ++ B).drop q by
          simp [List.drop_succ_cons]] at hh
        exact hh)
      rw [show (r :: R2) ++ B = r :: (R2 ++ B) from rfl]
      rw [subst_nomatch key repl r (R2 ++ B) h0, hrec]
      rfl

theorem no_match_inside_quoted (key R0 B : List Char)
    (hnokey : pyIn key (R0 ++ ['"']) = false) (hq : '"' ∉ key) :
    ∀ q, q < (R0 ++ ['"']).length →
      matchFixAt key (((R0 ++ ['"']) ++ B).drop q) = none := by
  intro q hql
  have hqle : q ≤ (R0 ++ ['"']).length := Nat.le_of_lt hql
  rw [List.drop_append_of_le_length hqle]
  cases hx : key.isPrefixOf ((R0 ++ ['"']).drop q ++ B) with
  | false => exact matchFixAt_none_of_not_pre key _ hx
  | true =>
      exfalso
      have hpre := List.isPrefixOf_iff_prefix.mp hx
      by_cases hlen : key.length ≤ ((R0 ++ ['"']).drop q).length
      · have h1 := prefix_of_append_left key _ B hpre hlen
        have h2 : key <:+: R0 ++ ['"'] :=
          h1.isInfix.trans (List.drop_suffix q (R0 ++ ['"'])).isInfix
        rw [← pyIn_iff] at h2
        rw [hnokey] at h2
        simp at h2
      · push_neg at hlen
        have h1 := append_prefix_of_ge key _ B hpre (Nat.le_of_lt hlen)
        have hmem : '"' ∈ (R0 ++ ['"']).drop q := by
          have hq0 : q ≤ R0.length := by
            simp [List.length_append] at hql
            omega
          rw [List.drop_append_of_le_length hq0]
          simp
        exact hq (h1.sublist.mem hmem)


theorem add_app_noop_of_contains (content app : List Char)
    (h : pyIn app content = true) : add_app_to_settings content app = content := by
  unfold add_app_to_settings
  rw [h]
  simp

theorem add_app_rewrite_of_not_contains (content app : List Char)
    (h : pyIn app content = false) :
    add_app_to_settings content app =
      joinNL (processLines app false (splitlines content)) := by
  unfold add_app_to_settings
  rw [h]
  simp

/-- C1 counterexample: on a settings text with two INSTALLED_APPS blocks the
registrar inserts the quoted app name twice in a single run (the in-block flag
is set again by the second marker line), refuting "a single run never inserts
the app name more than once, for any input text". -/
theorem c1_counterexample :
    pyIn (("blog").toList)
        (("INSTALLED_APPS = [\n]\nINSTALLED_APPS = [\n]").toList) = false ∧
    (splitlines
        (("INSTALLED_APPS = [\n]\nINSTALLED_APPS = [\n]").toList)).countP
        (fun l => l == insLine (("blog").toList)) = 0 ∧
    (processLines (("blog").toList) false
        (splitlines
          (("INSTALLED_APPS = [\n]\nINSTALLED_APPS = [\n]").toList))).countP
        (fun l => l == insLine (("blog").toList)) = 2 := by
  decide

/-- C1 (amended): for every settings text in which the app name does not occur
and at most one line contains the INSTALLED_APPS marker, the registrar inserts
the quoted app name at exactly one point, immediately before the first closing
line at or after the marker line (and makes no insertion when either the
marker or such a closing line is absent). -/
theorem c1_single_insertion (content app : List Char)
    (happ : pyIn app content = false)
    (hone : (splitlines content).countP containsMarker ≤ 1) :
    add_app_to_settings content app =
      joinNL (specInsert app (splitlines content)) := by
  rw [add_app_rewrite_of_not_contains content app happ]
  rw [processLines_single_marker app (splitlines content) hone]

theorem c1_single_insertion_witness :
    pyIn (("blog").toList)
        (("INSTALLED_APPS = [\n    'django',\n]").toList) = false ∧
    (splitlines
        (("INSTALLED_APPS = [\n    'django',\n]").toList)).countP
        containsMarker ≤ 1 ∧
    add_app_to_settings (("INSTALLED_APPS = [\n    'django',\n]").toList)
        (("blog").toList) =
      joinNL (specInsert (("blog").toList)
        (splitlines (("INSTALLED_APPS = [\n    'django',\n]").toList))) :=
  ⟨by decide, by decide, c1_single_insertion _ _ (by decide) (by decide)⟩

/-- C2 counterexample: the reference fixer rewrites both occurrences of the
ROOT_URLCONF assignment pattern, not only the first; the later occurrence does
not survive unchanged. -/
theorem c2_counterexample :
    fix_project_references
        (("ROOT_URLCONF = \"a\"\nROOT_URLCONF = \"b\"").toList)
        (("p").toList) =
      (("ROOT_URLCONF = \"p.urls\"\nROOT_URLCONF = \"p.urls\"").toList) ∧
    pyIn (("ROOT_URLCONF = \"b\"").toList)
      (fix_project_references
        (("ROOT_URLCONF = \"a\"\nROOT_URLCONF = \"b\"").toList)
        (("p").toList)) = false := by
  decide

/-- C2 (amended): `re.sub` semantics: the substitution replaces every
leftmost non-overlapping occurrence of the pattern, scanning left to right and
continuing after each replacement — not only the first occurrence.  If the
first match `m` follows a match-free region `a`, the whole of `a` is kept, `m`
is replaced, and the substitution recurses over the remainder `b`, replacing
any later occurrence there as well. -/
theorem c2_replaces_every_occurrence (key repl a m b : List Char)
    (h1 : matchFixAt key (m ++ b) = some b)
    (h2 : ∀ p, p < a.length → matchFixAt key ((a ++ m ++ b).drop p) = none) :
    subst key repl (a ++ m ++ b) = a ++ repl ++ subst key repl b :=
  subst_replaces_each_match key repl a m b h1 h2

theorem c2_replaces_every_occurrence_witness :
    subst rootKey (rootRepl (("p").toList))
        ([] ++ (("ROOT_URLCONF = \"a\"").toList) ++
          (("\nROOT_URLCONF = \"b\"").toList)) =
      [] ++ rootRepl (("p").toList) ++
        subst rootKey (rootRepl (("p").toList))
          (("\nROOT_URLCONF = \"b\"").toList) :=
  c2_replaces_every_occurrence rootKey (rootRepl (("p").toList)) []
    (("ROOT_URLCONF = \"a\"").toList) (("\nROOT_URLCONF = \"b\"").toList)
    (by decide) (fun p hp => absurd hp (Nat.not_lt_zero p))

/-- C8: if the app name already occurs anywhere in the settings text as a
substring — even outside the registration block — the registrar leaves the
content byte-identical (the early return of lines 16-17). -/
theorem c8_substring_noop (content app : List Char)
    (h : pyIn app content = true) : add_app_to_settings content app = content :=
  add_app_noop_of_contains content app h

theorem c8_substring_noop_witness :
    pyIn (("django").toList)
        (("# django helpers\nINSTALLED_APPS = [\n]").toList) = true ∧
    add_app_to_settings (("# django helpers\nINSTALLED_APPS = [\n]").toList)
        (("django").toList) =
      (("# django helpers\nINSTALLED_APPS = [\n]").toList) :=
  ⟨by decide, c8_substring_noop _ _ (by decide)⟩

/-- C10: when the app name does not occur and no line contains the
INSTALLED_APPS marker, the registrar makes no insertion but still rewrites the
file as the split lines each terminated by a single newline; a file without a
trailing newline or with CRLF endings is therefore not byte-identical
afterwards. -/
theorem c10_no_marker_rewrite (content app : List Char)
    (h1 : pyIn app content = false)
    (h2 : (splitlines content).countP containsMarker = 0) :
    add_app_to_settings content app = joinNL (splitlines content) := by
  rw [add_app_rewrite_of_not_contains content app h1]
  rw [processLines_false_no_marker app (splitlines content) ?_]
  intro l hl
  have := List.countP_eq_zero.mp h2 l hl
  simpa using this

theorem c10_no_marker_rewrite_witness :
    pyIn (("myapp").toList) (("a\r\nb").toList) = false ∧
    (splitlines (("a\r\nb").toList)).countP containsMarker = 0 ∧
    add_app_to_settings (("a\r\nb").toList) (("myapp").toList) =
      (("a\nb\n").toList) ∧
    (("a\nb\n").toList) ≠ (("a\r\nb").toList) :=
  ⟨by decide, by decide,
    (c10_no_marker_rewrite _ _ (by decide) (by decide)).trans (by decide),
    by decide⟩

/-- C3 counterexample: a settings text that does contain a routing-config
assignment (`ROOT_URLCONF = "old"`), yet after the fixer runs the rewritten
assignment has been destroyed by the subsequent WSGI_APPLICATION substitution
(whose lazy match ends at the quote the ROOT replacement introduced), so the
output does not contain the expected assignment — the key ROOT_URLCONF does
not even survive. -/
theorem c3_counterexample :
    hasMatch rootKey
        (("WSGI_APPLICATION = \"ROOT_URLCONF = \"old\"\"").toList) = true ∧
    pyIn (rootRepl (("My_Blog").toList))
      (fix_project_references
        (("WSGI_APPLICATION = \"ROOT_URLCONF = \"old\"\"").toList)
        (("My_Blog").toList)) = false ∧
    pyIn rootKey
      (fix_project_references
        (("WSGI_APPLICATION = \"ROOT_URLCONF = \"old\"\"").toList)
        (("My_Blog").toList)) = false := by
  decide

/-- C3 (amended): whenever the ROOT_URLCONF pass rewrites an assignment, so
that its output splits as A, the literal ROOT_URLCONF = "<safe>.urls", B, then
provided no WSGI_APPLICATION match overlaps that rewritten assignment — every
match starting in A ends at or before it (its remainder retains the whole
assignment and tail), and the safe name does not smuggle the WSGI key into it
(no match can start inside it, as it ends in a quote) — the fixer's output
still contains ROOT_URLCONF = "<safe>.urls"; concretely, with prior value
"old.urls" and safe name "My_Blog" (from project name "My-Blog") the output
contains ROOT_URLCONF = "My_Blog.urls", also in the presence of an ordinary
WSGI_APPLICATION assignment that the second pass rewrites. -/
theorem c3_root_assignment_rewritten (text safe A B : List Char)
    (hI : subst rootKey (rootRepl safe) text = A ++ (rootRepl safe ++ B))
    (hkey : pyIn wsgiKey (rootRepl safe) = false)
    (hA : ∀ p, p < A.length →
      Option.all
        (fun rest => decide ((rootRepl safe ++ B).length ≤ rest.length))
        (matchFixAt wsgiKey ((A ++ (rootRepl safe ++ B)).drop p)) = true) :
    pyIn (rootRepl safe) (fix_project_references text safe) = true := by
  have h1 : ∀ p, p < A.length → ∀ rest,
      matchFixAt wsgiKey ((A ++ (rootRepl safe ++ B)).drop p) = some rest →
      (rootRepl safe ++ B).length ≤ rest.length := by
    intro p hp rest hm
    have hb := hA p hp
    rw [hm] at hb
    simpa using hb
  obtain ⟨C, hC⟩ := subst_skips_to wsgiKey (wsgiRepl safe)
    (A ++ (rootRepl safe ++ B)).length A (rootRepl safe ++ B)
    (Nat.le_refl _) h1
  have hdecomp : rootRepl safe =
      (rootKey ++ (" = \"").toList ++ safe ++ (".urls").toList) ++ ['"'] := by
    have e2 : (".urls\"").toList = (".urls").toList ++ ['"'] := rfl
    simp [rootRepl, e2]
  have h2 : ∀ q, q < (rootRepl safe).length →
      matchFixAt wsgiKey ((rootRepl safe ++ B).drop q) = none := by
    rw [hdecomp]
    exact no_match_inside_quoted wsgiKey _ B
      (by rw [← hdecomp]; exact hkey) (by decide)
  have hcopy := subst_copies_run wsgiKey (wsgiRepl safe) (rootRepl safe) B h2
  unfold fix_project_references
  rw [hI, hC, hcopy]
  have hparts := pyIn_of_parts (rootRepl safe) C
    (subst wsgiKey (wsgiRepl safe) B)
  simpa [List.append_assoc] using hparts

theorem c3_root_assignment_rewritten_witness :
    safe_name (("My-Blog").toList) = (("My_Blog").toList) ∧
    rootRepl (("My_Blog").toList) =
      (("ROOT_URLCONF = \"My_Blog.urls\"").toList) ∧
    hasMatch wsgiKey
      (("\nWSGI_APPLICATION = \"old.wsgi.application\"").toList) = true ∧
    pyIn (rootRepl (("My_Blog").toList))
      (fix_project_references
        (("ROOT_URLCONF = \"old.urls\"\nWSGI_APPLICATION = \"old.wsgi.application\"").toList)
        (("My_Blog").toList)) = true :=
  ⟨by decide, by decide, by decide,
    c3_root_assignment_rewritten _ _ []
      (("\nWSGI_APPLICATION = \"old.wsgi.application\"").toList)
      (by decide) (by decide)
      (fun p hp => absurd hp (Nat.not_lt_zero p))⟩

/-- C4: app registration is idempotent: if the settings text does not contain
the app name, running the registrar on its own output changes nothing — the
second run either finds the inserted name (and returns early) or, when no
insertion happened, re-splits its own normalised output into the same lines. -/
theorem c4_registration_idempotent (content app : List Char)
    (h : pyIn app content = false) :
    add_app_to_settings (add_app_to_settings content app) app =
      add_app_to_settings content app := by
  have hmain := add_app_rewrite_of_not_contains content app h
  rcases processLines_id_or_inserts app false (splitlines content) with he | hin
  · by_cases h2 : pyIn app (add_app_to_settings content app) = true
    · exact add_app_noop_of_contains _ app h2
    · have h2' := Bool.eq_false_iff.mpr h2
      rw [add_app_rewrite_of_not_contains _ app h2']
      rw [hmain, he]
      rw [splitlines_joinNL _ (splitlines_noLB content), he]
  · have h2 : pyIn app (add_app_to_settings content app) = true := by
      rw [hmain, pyIn_iff]
      exact hin
    exact add_app_noop_of_contains _ app h2

theorem c4_registration_idempotent_witness :
    pyIn (("blog").toList) (("INSTALLED_APPS = [\n]").toList) = false ∧
    add_app_to_settings
        (add_app_to_settings (("INSTALLED_APPS = [\n]").toList)
          (("blog").toList)) (("blog").toList) =
      add_app_to_settings (("INSTALLED_APPS = [\n]").toList)
        (("blog").toList) :=
  ⟨by decide, c4_registration_idempotent _ _ (by decide)⟩

/-- C5 counterexample: the reference fixer is not idempotent on every settings
text: on this text the first pass rewrites an assignment whose whitespace runs
contain newlines, and the quote introduced by the replacement lets a second
pass find a new match, changing the text again. -/
theorem c5_counterexample :
    fix_project_references
        (fix_project_references
          (("ROOT_URLCONF = \"ROOT_URLCONF\n=\n\"x\"").toList)
          (("p").toList))
        (("p").toList) ≠
      fix_project_references
        (("ROOT_URLCONF = \"ROOT_URLCONF\n=\n\"x\"").toList)
        (("p").toList) := by
  decide

/-- C5 (amended): the fixer is idempotent on every settings text whose first
pass yields an output in which every occurrence of either pattern key begins a
full canonical replaced assignment (the safe name containing no quote and no
newline); on such outputs — which include every ordinarily formatted settings
file — a second pass replaces each canonical assignment by itself. -/
theorem c5_idempotent_on_canonical (text safe : List Char)
    (hs : ∀ c ∈ safe, ¬(c = '"' ∨ c = '\'' ∨ c = '\n'))
    (h1 : onlyC rootKey (rootRepl safe) (fix_project_references text safe) = true)
    (h2 : onlyC wsgiKey (wsgiRepl safe) (fix_project_references text safe) = true) :
    fix_project_references (fix_project_references text safe) safe =
      fix_project_references text safe :=
  fix_second_pass_id text safe hs h1 h2

theorem c5_idempotent_on_canonical_witness :
    (∀ c ∈ (("My_Blog").toList), ¬(c = '"' ∨ c = '\'' ∨ c = '\n')) ∧
    fix_project_references
        (fix_project_references
          (("ROOT_URLCONF = \"old.urls\"\nWSGI_APPLICATION = \"old.wsgi.application\"").toList)
          (("My_Blog").toList))
        (("My_Blog").toList) =
      fix_project_references
        (("ROOT_URLCONF = \"old.urls\"\nWSGI_APPLICATION = \"old.wsgi.application\"").toList)
        (("My_Blog").toList) :=
  ⟨by decide,
    c5_idempotent_on_canonical _ _ (by decide) (by decide) (by decide)⟩

/-- C6: a target directory that exists and is non-empty makes the command
exit with status 1 before performing any effect: no directory is created and
nothing is copied or written, whatever the rest of the environment looks
like. -/
theorem c6_nonempty_target_aborts (e : Env)
    (h1 : e.target_exists = true) (h2 : e.target_nonempty = true) :
    (project e).1 = 1 ∧ (project e).2 = [] := by
  cases hp : e.preset_exists <;> simp [project, hp, h1, h2]

theorem c6_nonempty_target_aborts_witness :
    (project ⟨true, true, true, true, true, true, true, true, false⟩).1 = 1 ∧
    (project ⟨true, true, true, true, true, true, true, true, false⟩).2 = [] :=
  c6_nonempty_target_aborts _ rfl rfl

/-- C7: an absent preset makes the command exit with status 1 with no effect
performed: in particular no target directory is created, since the preset
check precedes the directory creation. -/
theorem c7_missing_preset_aborts (e : Env)
    (h : e.preset_exists = false) :
    (project e).1 = 1 ∧ (project e).2 = [] := by
  simp [project, h]

theorem c7_missing_preset_aborts_witness :
    (project ⟨false, false, false, true, true, true, true, true, false⟩).1 = 1 ∧
    (project ⟨false, false, false, true, true, true, true, true, false⟩).2 = [] :=
  c7_missing_preset_aborts _ rfl

/-- C9: when the environment template exists, the produced environment file is
the template with every occurrence of the placeholder token replaced by the
generated secret; for a secret of the shape Django generates (longer than
twelve characters, containing no brace), the output contains no placeholder
token; when the template is absent no environment file is produced. -/
theorem c9_env_materialisation (template secret : List Char)
    (h1 : 12 < secret.length)
    (h2 : ∀ c ∈ secret, ¬(c = '\x7b' ∨ c = '\x7d')) :
    env_file (some template) secret =
        some (pyReplace secret_placeholder secret template) ∧
    pyIn secret_placeholder (pyReplace secret_placeholder secret template) = false ∧
    env_file none secret = none := by
  refine ⟨rfl, ?_, rfl⟩
  exact pyReplace_no_token secret h2 h1 template.length template (Nat.le_refl _)

theorem c9_env_materialisation_witness :
    12 < (("a1b2c3d4e5f6g7").toList).length ∧
    pyIn secret_placeholder
      (pyReplace secret_placeholder (("a1b2c3d4e5f6g7").toList)
        (("SECRET_KEY=\x7b\x7bSECRET_KEY\x7d\x7d\nDEBUG=True").toList)) = false :=
  ⟨by decide,
    (c9_env_materialisation
      (("SECRET_KEY=\x7b\x7bSECRET_KEY\x7d\x7d\nDEBUG=True").toList)
      (("a1b2c3d4e5f6g7").toList) (by decide) (by decide)).2.1⟩
